import Mathlib

/-!
# Verification of the imghash-rs perceptual hasher

Shallow embedding of `src/perceptual.rs` (`PerceptualHasher::hash_from_img`,
`PerceptualHasher::hash_from_path`) together with the helpers it imports from
the crate's `math` module (`Axis`, `dct2_over_matrix`, `median`) and the
`Convert` collaborator boundary.  Rust `f64` values are modelled as real
numbers, `u8` intensities as natural numbers, and code that can panic
(`median(..).unwrap()`, `chunks(0)`) is modelled with `Option`.
-/

namespace ImgHash

/-- The hasher configuration, from `PerceptualHasher { width, height, factor }`
in `src/perceptual.rs`. -/
structure PerceptualHasher where
  width : ℕ
  height : ℕ
  factor : ℕ
deriving DecidableEq

/-- The output artifact, from `ImageHash { matrix: Vec<Vec<bool>> }`. -/
structure ImageHash where
  matrix : List (List Bool)
deriving DecidableEq

/-- Modelled from the spec: the axis selector of the crate's `math` module
(`Axis::Row`, `Axis::Column`), whose source file is not under `src/`. -/
inductive Axis where
  | Row : Axis
  | Column : Axis
deriving DecidableEq

/-- Rust's slice `chunks(c)`: successive sub-slices of length `c`, the last one
possibly shorter.  Rust panics on `c = 0`; that case is unreachable here
because `hash_from_img` guards it, and we return `[]`. -/
def chunks {α : Type} (c : ℕ) : List α → List (List α)
  | [] => []
  | x :: xs =>
      if h : c = 0 then []
      else (x :: xs).take c :: chunks c ((x :: xs).drop c)
termination_by l => l.length
decreasing_by
  have hc : 0 < c := Nat.pos_of_ne_zero h
  simp only [List.length_drop, List.length_cons]
  omega

/-- Modelled from the spec: the 1D unnormalized type-II DCT of the crate's
`math` module (not under `src/`): `y_k = Σ_{n=0}^{N-1} x_n · cos(π/N · (n + 1/2) · k)`
for `k = 0 .. N-1`. -/
noncomputable def dct2 (x : List ℝ) : List ℝ :=
  (List.range x.length).map fun (k : ℕ) =>
    ∑ n ∈ Finset.range x.length,
      x.getD n 0 * Real.cos (Real.pi / (x.length : ℝ) * ((n : ℝ) + 1 / 2) * (k : ℝ))

/-- The list of columns of a row-major matrix; the column count is read off the
first row.  Entries of rows too short to reach a column are skipped. -/
def columnsOf (m : List (List ℝ)) : List (List ℝ) :=
  (List.range (m.headD []).length).map fun j => m.filterMap fun row => row[j]?

/-- Modelled from the spec: `dct2_over_matrix` of the crate's `math` module
(not under `src/`): apply the 1D DCT-II along the given axis — to every row for
`Axis::Row`, to every column for `Axis::Column` — keeping the matrix shape. -/
noncomputable def dct2_over_matrix (m : List (List ℝ)) : Axis → List (List ℝ)
  | Axis.Row => m.map dct2
  | Axis.Column => columnsOf ((columnsOf m).map dct2)

/-- Modelled from the spec: `median` of the crate's `math` module (not under
`src/`): `none` on the empty sequence; otherwise the middle value of the sorted
sequence for an odd count, and the arithmetic mean of the two middle values of
the sorted sequence for an even count. -/
noncomputable def median (values : List ℝ) : Option ℝ :=
  if values = [] then none
  else
    let sorted := values.mergeSort fun a b => decide (a ≤ b)
    if sorted.length % 2 = 1 then some (sorted.getD (sorted.length / 2) 0)
    else some ((sorted.getD (sorted.length / 2 - 1) 0 + sorted.getD (sorted.length / 2) 0) / 2)

/-- The matrix-builder step of `hash_from_img` (`src/perceptual.rs:29-32`):
chunk the flat intensity buffer into rows of `width*factor` samples and widen
each intensity to a real number. -/
def buildMatrix (w : ℕ) (buffer : List ℕ) : List (List ℝ) :=
  (chunks w buffer).map fun row => row.map fun (b : ℕ) => (b : ℝ)

/-- The 2D transform of `hash_from_img` (`src/perceptual.rs:35-38`): 1D DCT
over every column, then over every row, in that order. -/
noncomputable def dctMatrixOf (cfg : PerceptualHasher) (buffer : List ℕ) : List (List ℝ) :=
  dct2_over_matrix
    (dct2_over_matrix (buildMatrix (cfg.width * cfg.factor) buffer) Axis.Column)
    Axis.Row

/-- The low-frequency selector of `hash_from_img` (`src/perceptual.rs:41-45`):
keep the first `height` rows and the first `width` entries of each kept row. -/
def selectLowFreq (height width : ℕ) (m : List (List ℝ)) : List (List ℝ) :=
  (m.take height).map fun row => row.take width

/-- The `scaled_matrix` of `hash_from_img`. -/
noncomputable def scaledMatrixOf (cfg : PerceptualHasher) (buffer : List ℕ) : List (List ℝ) :=
  selectLowFreq cfg.height cfg.width (dctMatrixOf cfg buffer)

/-- The median of the flattened `scaled_matrix` (`src/perceptual.rs:48-49`). -/
noncomputable def medianOf (cfg : PerceptualHasher) (buffer : List ℕ) : Option ℝ :=
  median (scaledMatrixOf cfg buffer).flatten

/-- One assignment `bits[i][j] = v` of the bit loop.  A write out of the
pre-initialized matrix's bounds is modelled as a no-op; the bounds proof for
the loop shows this never happens. -/
def setBit (bits : List (List Bool)) (i j : ℕ) (v : Bool) : List (List Bool) :=
  bits.set i ((bits.getD i []).set j v)

/-- The bit-assignment loop of `hash_from_img` (`src/perceptual.rs:53-57`):
for each `(i, row)` and `(j, pixel)` of the enumerated scaled matrix, set
`bits[i][j] = pixel > median`. -/
noncomputable def assignBits (med : ℝ) (scaled : List (List ℝ))
    (bits0 : List (List Bool)) : List (List Bool) :=
  scaled.enum.foldl
    (fun bits irow =>
      irow.2.enum.foldl
        (fun b jpix => setBit b irow.1 jpix.1 (decide (jpix.2 > med))) bits)
    bits0

/-- `PerceptualHasher::hash_from_img` (`src/perceptual.rs:24-60`), taking the
intensity buffer produced by the `Convert` collaborator.  `none` models a Rust
panic: `chunks(0)` when `width*factor = 0`, and `median(..).unwrap()` on an
empty coefficient selection. -/
noncomputable def hash_from_img (cfg : PerceptualHasher) (buffer : List ℕ) :
    Option ImageHash :=
  if cfg.width * cfg.factor = 0 then none
  else
    match medianOf cfg buffer with
    | none => none
    | some med =>
        some ⟨assignBits med (scaledMatrixOf cfg buffer)
          (List.replicate cfg.height (List.replicate cfg.width false))⟩

/-- `PerceptualHasher::hash_from_path` (`src/perceptual.rs:17-22`).  The
collaborator boundary is abstract: `openResult` models
`image::io::Reader::open(path)` (its error propagated by `?`), `decode` models
`.decode()`; a decoded image is represented by the intensity buffer the
(deterministic, spec-modelled) `Convert` collaborator derives from it. -/
noncomputable def hash_from_path {ε ι : Type} (cfg : PerceptualHasher)
    (openResult : Except ε ι) (decode : ι → Except ε (List ℕ)) :
    Option (Except ε ImageHash) :=
  match openResult with
  | Except.error e => some (Except.error e)
  | Except.ok r =>
      match decode r with
      | Except.error e => some (Except.error e)
      | Except.ok buffer => (hash_from_img cfg buffer).map Except.ok

/-- The bit stored at position `(i, j)` of a bit matrix (`false` past the
ends, matching the all-`false` pre-initialization). -/
def bitAt (bits : List (List Bool)) (i j : ℕ) : Bool :=
  (bits.getD i []).getD j false

/-- The coefficient at position `(i, j)` of a real matrix (`0` past the ends). -/
def coefAt (m : List (List ℝ)) (i j : ℕ) : ℝ :=
  (m.getD i []).getD j 0

/-! ## Basic lemmas about `chunks` -/

lemma chunks_cons {α : Type} {c : ℕ} (hc : c ≠ 0) (x : α) (xs : List α) :
    chunks c (x :: xs) = (x :: xs).take c :: chunks c ((x :: xs).drop c) := by
  rw [chunks]
  simp [hc]

lemma chunks_nil {α : Type} (c : ℕ) : chunks c ([] : List α) = [] := by
  rw [chunks]

/-- On a buffer of length exactly `c * H`, `chunks` yields `H` rows of `c`
entries each. -/
lemma chunks_exact {α : Type} {c : ℕ} (hc : c ≠ 0) :
    ∀ (H : ℕ) (l : List α), l.length = c * H →
      (chunks c l).length = H ∧ ∀ r ∈ chunks c l, r.length = c := by
  intro H
  induction H with
  | zero =>
      intro l hl
      have : l = [] := List.eq_nil_of_length_eq_zero (by omega)
      subst this
      simp [chunks_nil]
  | succ H ih =>
      intro l hl
      match l with
      | [] =>
          exfalso
          have := Nat.mul_succ c H
          simp at hl
          omega
      | x :: xs =>
          rw [chunks_cons hc]
          have hlen : (x :: xs).length = c * H + c := by
            rw [hl, Nat.mul_succ]
          have hdrop : ((x :: xs).drop c).length = c * H := by
            simp only [List.length_drop]
            omega
          obtain ⟨h1, h2⟩ := ih _ hdrop
          refine ⟨by simp [h1], ?_⟩
          intro r hr
          rcases List.mem_cons.mp hr with rfl | hr
          · simp only [List.length_take]
            omega
          · exact h2 r hr

/-! ## Basic lemmas about `dct2` -/

lemma dct2_length (x : List ℝ) : (dct2 x).length = x.length := by
  rw [dct2, List.length_map, List.length_range]

lemma dct2_ne_nil {x : List ℝ} (hx : x ≠ []) : dct2 x ≠ [] := by
  intro h
  apply hx
  have := dct2_length x
  rw [h] at this
  exact List.eq_nil_of_length_eq_zero this.symm

/-- The `k`-th DCT-II output coefficient is the defining cosine sum. -/
lemma dct2_getD {x : List ℝ} {k : ℕ} (hk : k < x.length) :
    (dct2 x).getD k 0 =
      ∑ n ∈ Finset.range x.length,
        x.getD n 0 * Real.cos (Real.pi / (x.length : ℝ) * ((n : ℝ) + 1 / 2) * (k : ℝ)) := by
  rw [dct2, List.getD_eq_getElem?_getD, List.getElem?_map, List.getElem?_range hk]
  rfl

/-! ## Basic lemmas about `columnsOf` -/

/-- When every row reaches column `j`, reading column `j` never skips a row. -/
lemma filterMap_getElem_eq_map {j : ℕ} :
    ∀ (m : List (List ℝ)), (∀ r ∈ m, j < r.length) →
      (m.filterMap fun row => row[j]?) = m.map fun row => row.getD j 0 := by
  intro m
  induction m with
  | nil => intro _; simp
  | cons r rest ih =>
      intro h
      have hr : j < r.length := h r (by simp)
      have hrest := ih fun r' hr' => h r' (List.mem_cons_of_mem _ hr')
      simp only [List.filterMap_cons, List.map_cons]
      rw [List.getElem?_eq_getElem hr]
      simp only [Option.toList]
      rw [hrest]
      congr 1
      rw [List.getD_eq_getElem?_getD, List.getElem?_eq_getElem hr]
      rfl

/-- On a non-empty matrix whose rows all have length `W`, `columnsOf` returns
the `W` columns, each listing the rows' entries at that index. -/
lemma columnsOf_rect {m : List (List ℝ)} {W : ℕ} (hm : m ≠ [])
    (hw : ∀ r ∈ m, r.length = W) :
    (columnsOf m).length = W ∧
      ∀ j, j < W → (columnsOf m).getD j [] = m.map fun row => row.getD j 0 := by
  cases m with
  | nil => exact absurd rfl hm
  | cons r rest =>
      have hrW : r.length = W := hw r (by simp)
      constructor
      · simp only [columnsOf, List.length_map, List.length_range, List.headD_cons, hrW]
      · intro j hj
        rw [columnsOf, List.getD_eq_getElem?_getD, List.getElem?_map,
          List.getElem?_range (by simp [List.headD_cons, hrW, hj])]
        simp only [Option.map_some', Option.getD_some]
        exact filterMap_getElem_eq_map _ fun r' hr' => by rw [hw r' hr']; exact hj

/-! ## Basic lemmas about `setBit` and `bitAt` -/

lemma setBit_length (b : List (List Bool)) (i j : ℕ) (v : Bool) :
    (setBit b i j v).length = b.length := by
  simp [setBit]

lemma setBit_row_length (b : List (List Bool)) (i j : ℕ) (v : Bool) (i' : ℕ) :
    ((setBit b i j v).getD i' []).length = (b.getD i' []).length := by
  rw [setBit, List.getD_eq_getElem?_getD, List.getD_eq_getElem?_getD, List.getElem?_set]
  by_cases hii : i = i'
  · subst hii
    by_cases hlen : i < b.length
    · simp [hlen, List.getD_eq_getElem?_getD]
    · have : b[i]? = none := List.getElem?_eq_none (by omega)
      simp [hlen, this]
  · simp [hii]

lemma getD_of_length_le {α : Type} {l : List α} {i : ℕ} (d : α) (h : l.length ≤ i) :
    l.getD i d = d := by
  rw [List.getD_eq_getElem?_getD, List.getElem?_eq_none h]
  rfl

lemma getD_set_eq {α : Type} (r : List α) (j j' : ℕ) (v d : α) :
    (r.set j v).getD j' d = if j = j' ∧ j < r.length then v else r.getD j' d := by
  rw [List.getD_eq_getElem?_getD, List.getElem?_set]
  by_cases h : j = j'
  · subst h
    by_cases h2 : j < r.length
    · simp [h2]
    · rw [if_pos rfl, if_neg h2, if_neg (by tauto)]
      rw [List.getD_eq_getElem?_getD, List.getElem?_eq_none (by omega)]
  · rw [if_neg h, if_neg (by tauto), List.getD_eq_getElem?_getD]

lemma setBit_row_other {b : List (List Bool)} {i i' : ℕ} (j : ℕ) (v : Bool)
    (h : i' ≠ i) : (setBit b i j v).getD i' [] = b.getD i' [] := by
  rw [setBit, getD_set_eq, if_neg (by tauto)]

lemma bitAt_setBit (b : List (List Bool)) (i j : ℕ) (v : Bool) (i' j' : ℕ) :
    bitAt (setBit b i j v) i' j' =
      if i' = i ∧ j' = j ∧ j < (b.getD i []).length then v else bitAt b i' j' := by
  by_cases hii : i' = i
  · subst hii
    by_cases hilen : i' < b.length
    · have hrow : (setBit b i' j v).getD i' [] = (b.getD i' []).set j v := by
        rw [setBit, getD_set_eq, if_pos ⟨rfl, hilen⟩]
      rw [bitAt, hrow, getD_set_eq]
      by_cases hjj : j = j' <;> by_cases hjlen : j < (b.getD i' []).length
      · rw [if_pos ⟨hjj, hjlen⟩, if_pos (by tauto)]
      · rw [if_neg (by tauto), if_neg (by tauto), bitAt]
      · rw [if_neg (by tauto), if_neg (by tauto), bitAt]
      · rw [if_neg (by tauto), if_neg (by tauto), bitAt]
    · have hb : setBit b i' j v = b := by
        rw [setBit]
        exact List.set_eq_of_length_le (by omega)
      have hrow : b.getD i' [] = [] := getD_of_length_le _ (by omega)
      rw [hb, if_neg (by rw [hrow]; simp)]
  · rw [bitAt, setBit_row_other j v hii, if_neg (by tauto), bitAt]

/-! ## The bit-assignment loop, unrolled

`innerLoop`/`outerLoop` are the two nested `for` loops of `assignBits` over
explicitly enumerated lists; `assignBits` is definitionally an `outerLoop`. -/

noncomputable def innerLoop (med : ℝ) (i : ℕ) (bits : List (List Bool))
    (l : List (ℕ × ℝ)) : List (List Bool) :=
  l.foldl (fun b jpix => setBit b i jpix.1 (decide (jpix.2 > med))) bits

noncomputable def outerLoop (med : ℝ) (bits : List (List Bool))
    (l : List (ℕ × List ℝ)) : List (List Bool) :=
  l.foldl (fun bs irow => innerLoop med irow.1 bs irow.2.enum) bits

lemma assignBits_eq_outerLoop (med : ℝ) (scaled : List (List ℝ))
    (bits0 : List (List Bool)) :
    assignBits med scaled bits0 = outerLoop med bits0 scaled.enum := rfl

lemma innerLoop_nil (med : ℝ) (i : ℕ) (bits : List (List Bool)) :
    innerLoop med i bits [] = bits := rfl

lemma innerLoop_cons (med : ℝ) (i : ℕ) (bits : List (List Bool)) (p : ℕ × ℝ)
    (l : List (ℕ × ℝ)) :
    innerLoop med i bits (p :: l) =
      innerLoop med i (setBit bits i p.1 (decide (p.2 > med))) l := rfl

lemma innerLoop_length (med : ℝ) (i : ℕ) :
    ∀ (l : List (ℕ × ℝ)) (bits : List (List Bool)),
      (innerLoop med i bits l).length = bits.length := by
  intro l
  induction l with
  | nil => intro bits; rfl
  | cons p l ih => intro bits; rw [innerLoop_cons, ih, setBit_length]

lemma innerLoop_row_length (med : ℝ) (i : ℕ) :
    ∀ (l : List (ℕ × ℝ)) (bits : List (List Bool)) (i' : ℕ),
      ((innerLoop med i bits l).getD i' []).length = (bits.getD i' []).length := by
  intro l
  induction l with
  | nil => intro bits i'; rfl
  | cons p l ih => intro bits i'; rw [innerLoop_cons, ih, setBit_row_length]

lemma innerLoop_row_other (med : ℝ) (i : ℕ) :
    ∀ (l : List (ℕ × ℝ)) (bits : List (List Bool)) (i' : ℕ), i' ≠ i →
      (innerLoop med i bits l).getD i' [] = bits.getD i' [] := by
  intro l
  induction l with
  | nil => intro bits i' _; rfl
  | cons p l ih =>
      intro bits i' h
      rw [innerLoop_cons, ih _ _ h, setBit_row_other _ _ h]

/-- The inner loop writes `pixel > median` at row `i`, columns `j0 ..
j0 + row.length - 1` (where those fit in the bit matrix), and changes no
other bit. -/
lemma innerLoop_bitAt (med : ℝ) (i : ℕ) :
    ∀ (row : List ℝ) (j0 : ℕ) (bits : List (List Bool)) (j : ℕ),
      bitAt (innerLoop med i bits (List.enumFrom j0 row)) i j =
        if j0 ≤ j ∧ j < j0 + row.length ∧ j < (bits.getD i []).length
        then decide (row.getD (j - j0) 0 > med)
        else bitAt bits i j := by
  intro row
  induction row with
  | nil =>
      intro j0 bits j
      rw [List.enumFrom_nil, innerLoop_nil,
        if_neg (by simp only [List.length_nil]; omega)]
  | cons x xs ih =>
      intro j0 bits j
      rw [List.enumFrom_cons, innerLoop_cons]
      dsimp only
      rw [ih, setBit_row_length]
      by_cases hj : j = j0
      · subst hj
        rw [if_neg (by omega)]
        rw [bitAt_setBit]
        by_cases hlen : j < (bits.getD i []).length
        · rw [if_pos ⟨rfl, rfl, hlen⟩,
            if_pos ⟨le_refl j, by simp only [List.length_cons]; omega, hlen⟩]
          simp
        · rw [if_neg (by tauto), if_neg (by tauto)]
      · by_cases hcond : j0 + 1 ≤ j ∧ j < j0 + 1 + xs.length ∧ j < (bits.getD i []).length
        · rw [if_pos hcond, if_pos (by simp only [List.length_cons]; omega)]
          have hsub : j - j0 = (j - (j0 + 1)) + 1 := by omega
          rw [hsub, List.getD_cons_succ]
        · rw [if_neg hcond, if_neg (by simp only [List.length_cons]; omega),
            bitAt_setBit, if_neg (by tauto)]

lemma outerLoop_nil (med : ℝ) (bits : List (List Bool)) :
    outerLoop med bits [] = bits := rfl

lemma outerLoop_cons (med : ℝ) (bits : List (List Bool)) (p : ℕ × List ℝ)
    (l : List (ℕ × List ℝ)) :
    outerLoop med bits (p :: l) =
      outerLoop med (innerLoop med p.1 bits p.2.enum) l := rfl

lemma outerLoop_length (med : ℝ) :
    ∀ (l : List (ℕ × List ℝ)) (bits : List (List Bool)),
      (outerLoop med bits l).length = bits.length := by
  intro l
  induction l with
  | nil => intro bits; rfl
  | cons p l ih => intro bits; rw [outerLoop_cons, ih, innerLoop_length]

lemma outerLoop_row_length (med : ℝ) :
    ∀ (l : List (ℕ × List ℝ)) (bits : List (List Bool)) (i' : ℕ),
      ((outerLoop med bits l).getD i' []).length = (bits.getD i' []).length := by
  intro l
  induction l with
  | nil => intro bits i'; rfl
  | cons p l ih => intro bits i'; rw [outerLoop_cons, ih, innerLoop_row_length]

/-- The outer loop writes row `i0 + r` of the bit matrix from row `r` of the
scaled matrix, for every enumerated row, and changes nothing else. -/
lemma outerLoop_bitAt (med : ℝ) :
    ∀ (rows : List (List ℝ)) (i0 : ℕ) (bits : List (List Bool)) (i j : ℕ),
      bitAt (outerLoop med bits (List.enumFrom i0 rows)) i j =
        if i0 ≤ i ∧ i < i0 + rows.length ∧ j < (rows.getD (i - i0) []).length ∧
            j < (bits.getD i []).length
        then decide ((rows.getD (i - i0) []).getD j 0 > med)
        else bitAt bits i j := by
  intro rows
  induction rows with
  | nil =>
      intro i0 bits i j
      rw [List.enumFrom_nil, outerLoop_nil,
        if_neg (by simp only [List.length_nil]; omega)]
  | cons r rest ih =>
      intro i0 bits i j
      rw [List.enumFrom_cons, outerLoop_cons]
      dsimp only
      rw [ih, innerLoop_row_length]
      by_cases hi : i = i0
      · subst hi
        rw [if_neg (by omega)]
        rw [List.enum_eq_enumFrom, innerLoop_bitAt]
        by_cases hc : j < r.length ∧ j < (bits.getD i []).length
        · rw [if_pos (by omega),
            if_pos ⟨le_refl i, by simp only [List.length_cons]; omega, by
              simpa using hc.1, hc.2⟩]
          simp
        · rw [if_neg (by omega), if_neg (by simp only [Nat.sub_self,
            List.getD_cons_zero, List.length_cons]; omega)]
      · have hother : bitAt (innerLoop med i0 bits r.enum) i j = bitAt bits i j := by
          rw [bitAt, innerLoop_row_other _ _ _ _ _ hi, bitAt]
        rw [hother]
        by_cases hcond : i0 + 1 ≤ i ∧ i < i0 + 1 + rest.length ∧
            j < (rest.getD (i - (i0 + 1)) []).length ∧ j < (bits.getD i []).length
        · have hsub : i - i0 = (i - (i0 + 1)) + 1 := by omega
          rw [if_pos hcond, hsub, List.getD_cons_succ,
            if_pos (by simp only [List.length_cons]; omega)]
        · have hsub : i - i0 = 0 ∨ i - i0 = (i - (i0 + 1)) + 1 := by omega
          rw [if_neg hcond]
          rcases hsub with hsub | hsub
          · rw [if_neg (by omega)]
          · rw [hsub, List.getD_cons_succ, if_neg (by simp only [List.length_cons]; omega)]

/-! ## The bit matrix produced by `assignBits` on the all-`false`
pre-initialized matrix -/

lemma replicate_row_getD (height width i : ℕ) :
    (List.replicate height (List.replicate width false)).getD i [] =
      if i < height then List.replicate width false else [] := by
  rw [List.getD_eq_getElem?_getD, List.getElem?_replicate]
  by_cases h : i < height <;> simp [h]

lemma bitAt_replicate (height width i j : ℕ) :
    bitAt (List.replicate height (List.replicate width false)) i j = false := by
  rw [bitAt, replicate_row_getD]
  by_cases h : i < height
  · rw [if_pos h, List.getD_eq_getElem?_getD, List.getElem?_replicate]
    by_cases h2 : j < width <;> simp [h2]
  · rw [if_neg h]
    rfl

lemma assignBits_length (med : ℝ) (scaled : List (List ℝ)) (height width : ℕ) :
    (assignBits med scaled
      (List.replicate height (List.replicate width false))).length = height := by
  rw [assignBits_eq_outerLoop, List.enum_eq_enumFrom, outerLoop_length,
    List.length_replicate]

lemma assignBits_row_length (med : ℝ) (scaled : List (List ℝ))
    (height width i : ℕ) :
    ((assignBits med scaled
        (List.replicate height (List.replicate width false))).getD i []).length =
      if i < height then width else 0 := by
  rw [assignBits_eq_outerLoop, List.enum_eq_enumFrom, outerLoop_row_length,
    replicate_row_getD]
  by_cases h : i < height <;> simp [h]

/-- The final bit matrix: position `(i, j)` holds `pixel > median` when the
scaled matrix supplies a coefficient there and the position exists in the
pre-initialized `height × width` matrix; every other position is `false`. -/
lemma assignBits_bitAt (med : ℝ) (scaled : List (List ℝ))
    (height width i j : ℕ) :
    bitAt (assignBits med scaled
        (List.replicate height (List.replicate width false))) i j =
      if i < scaled.length ∧ j < (scaled.getD i []).length ∧ i < height ∧ j < width
      then decide ((scaled.getD i []).getD j 0 > med)
      else false := by
  rw [assignBits_eq_outerLoop, List.enum_eq_enumFrom, outerLoop_bitAt,
    bitAt_replicate, replicate_row_getD]
  simp only [Nat.zero_add, Nat.sub_zero, Nat.zero_le, true_and]
  by_cases hh : i < height
  · rw [if_pos hh, List.length_replicate]
    by_cases hc : i < scaled.length ∧ j < (scaled.getD i []).length ∧ j < width
    · rw [if_pos (by tauto), if_pos (by tauto)]
    · rw [if_neg (by tauto), if_neg (by tauto)]
  · rw [if_neg hh, List.length_nil, if_neg (by omega), if_neg (by tauto)]

/-! ## Shape and entries of the 2D DCT on rectangular matrices -/

lemma getD_map_of_lt {α β : Type} (f : α → β) (l : List α) {n : ℕ} (d : β)
    (d' : α) (h : n < l.length) : (l.map f).getD n d = f (l.getD n d') := by
  rw [List.getD_eq_getElem?_getD, List.getElem?_map, List.getElem?_eq_getElem h,
    List.getD_eq_getElem?_getD, List.getElem?_eq_getElem h]
  rfl

lemma getD_eq_of_mem_rect {m : List (List ℝ)} {k : ℕ} (hk : k < m.length) :
    m.getD k [] ∈ m := by
  rw [List.getD_eq_getElem?_getD, List.getElem?_eq_getElem hk]
  exact List.getElem_mem hk

lemma dct_row_length (m : List (List ℝ)) :
    (dct2_over_matrix m Axis.Row).length = m.length := by
  rw [dct2_over_matrix, List.length_map]

lemma dct_row_getD (m : List (List ℝ)) {i : ℕ} (h : i < m.length) :
    (dct2_over_matrix m Axis.Row).getD i [] = dct2 (m.getD i []) := by
  rw [dct2_over_matrix]
  exact getD_map_of_lt _ _ _ _ h

/-- On a non-empty `H × W` rectangular matrix, the column pass keeps the
shape and sends entry `(i, j)` to the 1D DCT-II of column `j` evaluated at
frequency `i`. -/
lemma dct_col_rect {m : List (List ℝ)} {H W : ℕ} (hm : m.length = H)
    (hw : ∀ r ∈ m, r.length = W) (hH : 0 < H) (hW : 0 < W) :
    (dct2_over_matrix m Axis.Column).length = H ∧
      (∀ r ∈ dct2_over_matrix m Axis.Column, r.length = W) ∧
      ∀ i j, i < H → j < W →
        coefAt (dct2_over_matrix m Axis.Column) i j =
          ∑ n ∈ Finset.range H,
            coefAt m n j *
              Real.cos (Real.pi / (H : ℝ) * ((n : ℝ) + 1 / 2) * (i : ℝ)) := by
  have hmne : m ≠ [] := by
    intro h
    rw [h] at hm
    simp at hm
    omega
  obtain ⟨hT0len, hT0get⟩ := columnsOf_rect hmne hw
  set T0 := columnsOf m with hT0
  have hT0rows : ∀ r ∈ T0, r.length = H := by
    intro r hr
    obtain ⟨k, hk, rfl⟩ := List.mem_iff_getElem.mp hr
    have hgd : T0.getD k [] = T0[k] := by
      rw [List.getD_eq_getElem?_getD, List.getElem?_eq_getElem hk]
      rfl
    rw [← hgd, hT0get k (by omega)]
    rw [List.length_map, hm]
  set T1 := T0.map dct2 with hT1
  have hT1len : T1.length = W := by rw [hT1, List.length_map, hT0len]
  have hT1rows : ∀ r ∈ T1, r.length = H := by
    intro r hr
    obtain ⟨s, hs, rfl⟩ := List.mem_map.mp hr
    rw [dct2_length]
    exact hT0rows s hs
  have hT1ne : T1 ≠ [] := by
    intro h
    rw [h] at hT1len
    simp at hT1len
    omega
  obtain ⟨houtlen, houtget⟩ := columnsOf_rect hT1ne hT1rows
  have hcol : dct2_over_matrix m Axis.Column = columnsOf T1 := by
    rw [dct2_over_matrix]
  refine ⟨by rw [hcol, houtlen], ?_, ?_⟩
  · intro r hr
    rw [hcol] at hr
    obtain ⟨k, hk, rfl⟩ := List.mem_iff_getElem.mp hr
    have hgd : (columnsOf T1).getD k [] = (columnsOf T1)[k] := by
      rw [List.getD_eq_getElem?_getD, List.getElem?_eq_getElem hk]
      rfl
    rw [← hgd, houtget k (by rw [houtlen] at hk; omega)]
    rw [List.length_map, hT1len]
  · intro i j hi hj
    rw [coefAt, hcol, houtget i hi]
    rw [getD_map_of_lt _ _ _ ([] : List ℝ) (by rw [hT1len]; exact hj)]
    rw [hT1, getD_map_of_lt _ _ _ ([] : List ℝ) (by rw [hT0len]; exact hj)]
    rw [hT0get j hj]
    have hlen : (m.map fun row => row.getD j 0).length = H := by
      rw [List.length_map, hm]
    rw [dct2_getD (by rw [hlen]; exact hi), hlen]
    refine Finset.sum_congr rfl ?_
    intro n hn
    rw [Finset.mem_range] at hn
    rw [getD_map_of_lt _ _ _ ([] : List ℝ) (by rw [hm]; exact hn)]
    rfl

/-! ## Shape of the pipeline under the collaborator contract -/

lemma buildMatrix_rect {W H : ℕ} (hW : W ≠ 0) (buffer : List ℕ)
    (hlen : buffer.length = W * H) :
    (buildMatrix W buffer).length = H ∧ ∀ r ∈ buildMatrix W buffer, r.length = W := by
  obtain ⟨h1, h2⟩ := chunks_exact hW H buffer hlen
  constructor
  · rw [buildMatrix, List.length_map, h1]
  · intro r hr
    rw [buildMatrix] at hr
    obtain ⟨s, hs, rfl⟩ := List.mem_map.mp hr
    rw [List.length_map]
    exact h2 s hs

lemma getD_take {α : Type} (l : List α) {n m : ℕ} (d : α) (h : m < n) :
    (List.take n l).getD m d = l.getD m d := by
  rw [List.getD_eq_getElem?_getD, List.getElem?_take, if_pos h,
    List.getD_eq_getElem?_getD]

/-- The low-frequency selector on an `H × W` matrix with `height ≤ H` and
`width ≤ W`: a `height × width` matrix that agrees entrywise with the
top-left block of the input. -/
lemma selectLowFreq_rect {m : List (List ℝ)} {H W height width : ℕ}
    (hm : m.length = H) (hw : ∀ r ∈ m, r.length = W) (hh : height ≤ H)
    (hwle : width ≤ W) :
    (selectLowFreq height width m).length = height ∧
      (∀ i, i < height → ((selectLowFreq height width m).getD i []).length = width) ∧
      ∀ i j, i < height → j < width →
        coefAt (selectLowFreq height width m) i j = coefAt m i j := by
  have htake : (m.take height).length = height := by
    rw [List.length_take, hm]
    omega
  have hrowlt : ∀ i, i < height → i < m.length := by omega
  have hgetrow : ∀ i, i < height →
      (selectLowFreq height width m).getD i [] = (m.getD i []).take width := by
    intro i hi
    rw [selectLowFreq, getD_map_of_lt _ _ _ ([] : List ℝ) (by omega),
      getD_take _ _ hi]
  refine ⟨by rw [selectLowFreq, List.length_map, htake], ?_, ?_⟩
  · intro i hi
    rw [hgetrow i hi, List.length_take]
    have : (m.getD i []).length = W := hw _ (getD_eq_of_mem_rect (hrowlt i hi))
    omega
  · intro i j hi hj
    rw [coefAt, coefAt, hgetrow i hi, getD_take _ _ hj]

/-- Under the collaborator contract (buffer of exactly `W*H` samples, valid
configuration), the DCT output matrix is `H × W` rectangular. -/
lemma dctMatrixOf_rect (cfg : PerceptualHasher) (buffer : List ℕ)
    (hw : cfg.width ≠ 0) (hh : cfg.height ≠ 0) (hf : cfg.factor ≠ 0)
    (hlen : buffer.length = (cfg.width * cfg.factor) * (cfg.height * cfg.factor)) :
    (dctMatrixOf cfg buffer).length = cfg.height * cfg.factor ∧
      ∀ r ∈ dctMatrixOf cfg buffer, r.length = cfg.width * cfg.factor := by
  have hW : cfg.width * cfg.factor ≠ 0 := by
    intro h
    rcases Nat.mul_eq_zero.mp h with h | h <;> contradiction
  have hH : cfg.height * cfg.factor ≠ 0 := by
    intro h
    rcases Nat.mul_eq_zero.mp h with h | h <;> contradiction
  obtain ⟨hMlen, hMrows⟩ := buildMatrix_rect hW buffer hlen
  obtain ⟨hClen, hCrows, _⟩ :=
    dct_col_rect hMlen hMrows (Nat.pos_of_ne_zero hH) (Nat.pos_of_ne_zero hW)
  constructor
  · rw [dctMatrixOf, dct_row_length, hClen]
  · intro r hr
    rw [dctMatrixOf, dct2_over_matrix] at hr
    obtain ⟨s, hs, rfl⟩ := List.mem_map.mp hr
    rw [dct2_length]
    exact hCrows s hs

/-- Under the contract, the scaled matrix is exactly `height × width` and
agrees entrywise with the DCT matrix. -/
lemma scaledMatrixOf_rect (cfg : PerceptualHasher) (buffer : List ℕ)
    (hw : cfg.width ≠ 0) (hh : cfg.height ≠ 0) (hf : cfg.factor ≠ 0)
    (hlen : buffer.length = (cfg.width * cfg.factor) * (cfg.height * cfg.factor)) :
    (scaledMatrixOf cfg buffer).length = cfg.height ∧
      (∀ i, i < cfg.height →
        ((scaledMatrixOf cfg buffer).getD i []).length = cfg.width) ∧
      ∀ i j, i < cfg.height → j < cfg.width →
        coefAt (scaledMatrixOf cfg buffer) i j = coefAt (dctMatrixOf cfg buffer) i j := by
  obtain ⟨hDlen, hDrows⟩ := dctMatrixOf_rect cfg buffer hw hh hf hlen
  have hhle : cfg.height ≤ cfg.height * cfg.factor :=
    Nat.le_mul_of_pos_right _ (Nat.pos_of_ne_zero hf)
  have hwle : cfg.width ≤ cfg.width * cfg.factor :=
    Nat.le_mul_of_pos_right _ (Nat.pos_of_ne_zero hf)
  exact selectLowFreq_rect hDlen hDrows hhle hwle

/-! ## The median -/

lemma mergeSort_facts (values : List ℝ) :
    ((values.mergeSort fun a b => decide (a ≤ b)).Perm values) ∧
      (values.mergeSort fun a b => decide (a ≤ b)).Sorted (· ≤ ·) := by
  refine ⟨List.mergeSort_perm values _, ?_⟩
  have h := @List.sorted_mergeSort ℝ (fun a b => decide (a ≤ b))
    (fun a b c hab hbc => by
      simp only [decide_eq_true_eq] at *
      exact le_trans hab hbc)
    (fun a b => by
      rcases le_total a b with h | h <;> simp [h])
    values
  exact List.Pairwise.imp (fun h' => by simpa using h') h

lemma median_of_ne_nil {values : List ℝ} (h : values ≠ []) :
    ∃ x, median values = some x := by
  rw [median, if_neg h]
  by_cases hpar : values.length % 2 = 1 <;> simp [hpar]

/-! ## Non-emptiness of the selected block for any non-empty buffer -/

lemma buildMatrix_head {W : ℕ} (hW : W ≠ 0) (b : ℕ) (bs : List ℕ) :
    buildMatrix W (b :: bs) ≠ [] ∧ (buildMatrix W (b :: bs)).headD [] ≠ [] := by
  rw [buildMatrix, chunks_cons hW, List.map_cons]
  refine ⟨by simp, ?_⟩
  rw [List.headD_cons]
  obtain ⟨w, rfl⟩ := Nat.exists_eq_succ_of_ne_zero hW
  rw [List.take_succ_cons, List.map_cons]
  simp

lemma columnsOf_head {m : List (List ℝ)} (hm : m ≠ []) (hr : m.headD [] ≠ []) :
    columnsOf m ≠ [] ∧ (columnsOf m).headD [] ≠ [] := by
  obtain ⟨r, rest, rfl⟩ := List.exists_cons_of_ne_nil hm
  rw [List.headD_cons] at hr
  obtain ⟨a, as, rfl⟩ := List.exists_cons_of_ne_nil hr
  rw [columnsOf]
  simp only [List.headD_cons, List.length_cons]
  rw [List.range_succ_eq_map, List.map_cons]
  refine ⟨by simp, ?_⟩
  rw [List.headD_cons, List.filterMap_cons]
  simp

lemma dct_col_head {m : List (List ℝ)} (hm : m ≠ []) (hr : m.headD [] ≠ []) :
    dct2_over_matrix m Axis.Column ≠ [] ∧
      (dct2_over_matrix m Axis.Column).headD [] ≠ [] := by
  obtain ⟨h0, h0h⟩ := columnsOf_head hm hr
  obtain ⟨t, ts, ht⟩ := List.exists_cons_of_ne_nil h0
  have hmap : (columnsOf m).map dct2 = dct2 t :: ts.map dct2 := by
    rw [ht, List.map_cons]
  have h1 : (columnsOf m).map dct2 ≠ [] := by rw [hmap]; simp
  have h1h : ((columnsOf m).map dct2).headD [] ≠ [] := by
    rw [hmap, List.headD_cons]
    exact dct2_ne_nil (by rw [ht, List.headD_cons] at h0h; exact h0h)
  rw [dct2_over_matrix]
  exact columnsOf_head h1 h1h

lemma dct_row_head {m : List (List ℝ)} (hm : m ≠ []) (hr : m.headD [] ≠ []) :
    dct2_over_matrix m Axis.Row ≠ [] ∧
      (dct2_over_matrix m Axis.Row).headD [] ≠ [] := by
  obtain ⟨r, rest, rfl⟩ := List.exists_cons_of_ne_nil hm
  rw [dct2_over_matrix, List.map_cons]
  refine ⟨by simp, ?_⟩
  rw [List.headD_cons]
  exact dct2_ne_nil (by rw [List.headD_cons] at hr; exact hr)

lemma scaled_head {cfg : PerceptualHasher} {buffer : List ℕ}
    (hw : cfg.width ≠ 0) (hh : cfg.height ≠ 0) (hf : cfg.factor ≠ 0)
    (hbuf : buffer ≠ []) :
    (scaledMatrixOf cfg buffer) ≠ [] ∧
      (scaledMatrixOf cfg buffer).headD [] ≠ [] := by
  have hW : cfg.width * cfg.factor ≠ 0 := by
    intro h
    rcases Nat.mul_eq_zero.mp h with h | h <;> contradiction
  obtain ⟨b, bs, rfl⟩ := List.exists_cons_of_ne_nil hbuf
  obtain ⟨hM, hMh⟩ := buildMatrix_head hW b bs
  obtain ⟨hC, hCh⟩ := dct_col_head hM hMh
  obtain ⟨hD, hDh⟩ := dct_row_head hC hCh
  have hD' : dctMatrixOf cfg (b :: bs) ≠ [] := hD
  have hDh' : (dctMatrixOf cfg (b :: bs)).headD [] ≠ [] := hDh
  obtain ⟨r, rest, hr⟩ := List.exists_cons_of_ne_nil hD'
  rw [hr, List.headD_cons] at hDh'
  obtain ⟨a, as, ha⟩ := List.exists_cons_of_ne_nil hDh'
  rw [scaledMatrixOf, selectLowFreq, hr]
  obtain ⟨h', hh'⟩ := Nat.exists_eq_succ_of_ne_zero hh
  obtain ⟨w', hw'⟩ := Nat.exists_eq_succ_of_ne_zero hw
  rw [hh', hw', List.take_succ_cons, List.map_cons]
  refine ⟨by simp, ?_⟩
  rw [List.headD_cons, ha, List.take_succ_cons]
  simp

lemma medianOf_isSome {cfg : PerceptualHasher} {buffer : List ℕ}
    (hw : cfg.width ≠ 0) (hh : cfg.height ≠ 0) (hf : cfg.factor ≠ 0)
    (hbuf : buffer ≠ []) : ∃ med, medianOf cfg buffer = some med := by
  obtain ⟨hs, hsh⟩ := scaled_head hw hh hf hbuf
  rw [medianOf]
  apply median_of_ne_nil
  rw [List.flatten_ne_nil_iff]
  obtain ⟨r, rest, hr⟩ := List.exists_cons_of_ne_nil hs
  refine ⟨r, by rw [hr]; simp, ?_⟩
  rw [hr, List.headD_cons] at hsh
  exact hsh

/-! ## `hash_from_img` on valid configurations -/

lemma getD_eq_get_of_lt {α : Type} (l : List α) (d : α) {k : ℕ}
    (h : k < l.length) : l.getD k d = l[k] := by
  rw [List.getD_eq_getElem?_getD, List.getElem?_eq_getElem h]
  rfl

lemma hash_from_img_eq {cfg : PerceptualHasher} {buffer : List ℕ} {med : ℝ}
    (hw : cfg.width ≠ 0) (hf : cfg.factor ≠ 0)
    (hmed : medianOf cfg buffer = some med) :
    hash_from_img cfg buffer =
      some ⟨assignBits med (scaledMatrixOf cfg buffer)
        (List.replicate cfg.height (List.replicate cfg.width false))⟩ := by
  have hW : cfg.width * cfg.factor ≠ 0 := by
    intro h
    rcases Nat.mul_eq_zero.mp h with h | h <;> contradiction
  rw [hash_from_img, if_neg hW, hmed]

lemma hash_from_img_shape {cfg : PerceptualHasher} {buffer : List ℕ}
    (hw : cfg.width ≠ 0) (hh : cfg.height ≠ 0) (hf : cfg.factor ≠ 0)
    (hbuf : buffer ≠ []) :
    ∃ hsh, hash_from_img cfg buffer = some hsh ∧
      hsh.matrix.length = cfg.height ∧ ∀ r ∈ hsh.matrix, r.length = cfg.width := by
  obtain ⟨med, hmed⟩ := medianOf_isSome hw hh hf hbuf
  refine ⟨_, hash_from_img_eq hw hf hmed, assignBits_length _ _ _ _, ?_⟩
  intro r hr
  obtain ⟨k, hk, rfl⟩ := List.mem_iff_getElem.mp hr
  have hk' : k < cfg.height := by
    rw [assignBits_length] at hk
    exact hk
  rw [← getD_eq_get_of_lt _ ([] : List Bool) hk, assignBits_row_length, if_pos hk']

/-! ## Claim theorems (part 1) -/

/-- C2: the 1D transform applied to each line of the matrix by the row pass is
the unnormalized type-II DCT: for a row of `N` samples, the `k`-th output
coefficient is `Σ_{n<N} x_n · cos(π/N · (n + 1/2) · k)`, with no `√(2/N)`
scaling factor, and the row keeps its length. -/
theorem dct_row_is_unnormalized_dct2 (m : List (List ℝ)) :
    (dct2_over_matrix m Axis.Row).length = m.length ∧
      ∀ i, i < m.length →
        ((dct2_over_matrix m Axis.Row).getD i []).length = (m.getD i []).length ∧
        ∀ k, k < (m.getD i []).length →
          coefAt (dct2_over_matrix m Axis.Row) i k =
            ∑ n ∈ Finset.range (m.getD i []).length,
              (m.getD i []).getD n 0 *
                Real.cos (Real.pi / (((m.getD i []).length : ℕ) : ℝ) *
                  ((n : ℝ) + 1 / 2) * (k : ℝ)) := by
  refine ⟨dct_row_length m, ?_⟩
  intro i hi
  constructor
  · rw [dct_row_getD m hi, dct2_length]
  · intro k hk
    rw [coefAt, dct_row_getD m hi, dct2_getD hk]

/-- Witness for C2 at the row `[1, 2]`. -/
theorem dct_row_is_unnormalized_dct2_witness :
    ((dct2_over_matrix [[(1:ℝ), 2]] Axis.Row).getD 0 []).length =
        ([[(1:ℝ), 2]].getD 0 []).length ∧
      ∀ k, k < ([[(1:ℝ), 2]].getD 0 []).length →
        coefAt (dct2_over_matrix [[(1:ℝ), 2]] Axis.Row) 0 k =
          ∑ n ∈ Finset.range ([[(1:ℝ), 2]].getD 0 []).length,
            ([[(1:ℝ), 2]].getD 0 []).getD n 0 *
              Real.cos (Real.pi / ((([[(1:ℝ), 2]].getD 0 []).length : ℕ) : ℝ) *
                ((n : ℝ) + 1 / 2) * (k : ℝ)) :=
  (dct_row_is_unnormalized_dct2 [[(1:ℝ), 2]]).2 0 (by norm_num)

/-- C4: `median` is the statistical median of the sequence: the middle value
of the sorted sequence for an odd count, the arithmetic mean of the two middle
values of the sorted sequence for an even count. -/
theorem median_is_statistical_median (xs : List ℝ) (k : ℕ) :
    (xs.length = 2 * k + 1 →
      ∃ s : List ℝ, s.Perm xs ∧ s.Sorted (· ≤ ·) ∧ median xs = some (s.getD k 0)) ∧
    (xs.length = 2 * k + 2 →
      ∃ s : List ℝ, s.Perm xs ∧ s.Sorted (· ≤ ·) ∧
        median xs = some ((s.getD k 0 + s.getD (k + 1) 0) / 2)) := by
  obtain ⟨hperm, hsort⟩ := mergeSort_facts xs
  have hslen : (xs.mergeSort fun a b => decide (a ≤ b)).length = xs.length :=
    hperm.length_eq
  constructor
  · intro hlen
    have hne : xs ≠ [] := by
      intro h
      rw [h] at hlen
      simp at hlen
    refine ⟨xs.mergeSort fun a b => decide (a ≤ b), hperm, hsort, ?_⟩
    rw [median, if_neg hne]
    dsimp only
    rw [if_pos (by rw [hslen, hlen]; omega)]
    have hidx : (xs.mergeSort fun a b => decide (a ≤ b)).length / 2 = k := by
      rw [hslen, hlen]
      omega
    rw [hidx]
  · intro hlen
    have hne : xs ≠ [] := by
      intro h
      rw [h] at hlen
      simp at hlen
    refine ⟨xs.mergeSort fun a b => decide (a ≤ b), hperm, hsort, ?_⟩
    rw [median, if_neg hne]
    dsimp only
    rw [if_neg (by rw [hslen, hlen]; omega)]
    have hidx : (xs.mergeSort fun a b => decide (a ≤ b)).length / 2 = k + 1 := by
      rw [hslen, hlen]
      omega
    rw [hidx]
    norm_num

/-- Witness for C4 at the odd-length sequence `[2, 1, 3]` (`k = 1`). -/
theorem median_is_statistical_median_witness :
    ∃ s : List ℝ, s.Perm [(2:ℝ), 1, 3] ∧ s.Sorted (· ≤ ·) ∧
      median [(2:ℝ), 1, 3] = some (s.getD 1 0) :=
  (median_is_statistical_median [(2:ℝ), 1, 3] 1).1 (by simp)

/-- C5: on an `H × W` coefficient matrix with `height ≤ H` and `width ≤ W`,
the low-frequency selector returns exactly the top-left `height × width`
sub-block, preserving row and column order. -/
theorem select_low_freq_top_left {m : List (List ℝ)} {H W height width : ℕ}
    (hm : m.length = H) (hw : ∀ r ∈ m, r.length = W) (hh : height ≤ H)
    (hwle : width ≤ W) :
    (selectLowFreq height width m).length = height ∧
      (∀ i, i < height → ((selectLowFreq height width m).getD i []).length = width) ∧
      ∀ i j, i < height → j < width →
        coefAt (selectLowFreq height width m) i j = coefAt m i j :=
  selectLowFreq_rect hm hw hh hwle

/-- Witness for C5 at the `2 × 2` matrix `[[1, 2], [3, 4]]` with
`height = width = 1`. -/
theorem select_low_freq_top_left_witness :
    (selectLowFreq 1 1 [[(1:ℝ), 2], [3, 4]]).length = 1 ∧
      (∀ i, i < 1 → ((selectLowFreq 1 1 [[(1:ℝ), 2], [3, 4]]).getD i []).length = 1) ∧
      ∀ i j, i < 1 → j < 1 →
        coefAt (selectLowFreq 1 1 [[(1:ℝ), 2], [3, 4]]) i j =
          coefAt [[(1:ℝ), 2], [3, 4]] i j :=
  @select_low_freq_top_left [[(1:ℝ), 2], [3, 4]] 2 2 1 1 (by norm_num)
    (by intro r hr; fin_cases hr <;> norm_num) (by norm_num) (by norm_num)

/-- C9: `hash_from_img` is deterministic — two invocations on equal
configuration and equal decoded input yield identical results. -/
theorem hash_from_img_deterministic (cfg cfg' : PerceptualHasher)
    (buffer buffer' : List ℕ) (hc : cfg = cfg') (hb : buffer = buffer') :
    hash_from_img cfg buffer = hash_from_img cfg' buffer' := by
  rw [hc, hb]

/-- Witness for C9 at the default configuration and a small buffer. -/
theorem hash_from_img_deterministic_witness :
    hash_from_img ⟨8, 8, 4⟩ [1, 2, 3] = hash_from_img ⟨8, 8, 4⟩ [1, 2, 3] :=
  hash_from_img_deterministic ⟨8, 8, 4⟩ ⟨8, 8, 4⟩ [1, 2, 3] [1, 2, 3] rfl rfl

/-! ## Concrete evaluations of the pipeline -/

lemma dct2_singleton (x : ℝ) : dct2 [x] = [x] := by
  rw [dct2]
  norm_num [List.range_succ, Finset.sum_range_one]

lemma median_singleton (x : ℝ) : median [x] = some x := by
  rw [median, if_neg (by simp)]
  dsimp only
  have hms : ([x].mergeSort fun a b => decide (a ≤ b)) = [x] := by
    simp [List.mergeSort]
  rw [hms]
  norm_num

lemma columnsOf_single (x : ℝ) : columnsOf [[x]] = [[x]] := by
  simp [columnsOf, List.range_succ]

lemma columnsOf_pair_row (a b : ℝ) : columnsOf [[a, b]] = [[a], [b]] := by
  simp [columnsOf, List.range_succ]

lemma columnsOf_pair_col (a b : ℝ) : columnsOf [[a], [b]] = [[a, b]] := by
  simp [columnsOf, List.range_succ]

lemma assignBits_single (med x : ℝ) :
    assignBits med [[x]] (List.replicate 1 (List.replicate 1 false)) =
      [[decide (x > med)]] := by
  have hrep : List.replicate 1 (List.replicate 1 false) = [[false]] := rfl
  rw [hrep, assignBits_eq_outerLoop, List.enum_eq_enumFrom, List.enumFrom_cons,
    List.enumFrom_nil, outerLoop_cons, outerLoop_nil]
  dsimp only
  rw [List.enum_eq_enumFrom, List.enumFrom_cons, List.enumFrom_nil,
    innerLoop_cons, innerLoop_nil]
  rfl

lemma chunks_one_single : chunks 1 ([5] : List ℕ) = [[5]] := by
  rw [chunks_cons one_ne_zero]
  simp [chunks_nil]

lemma buildMatrix_one_single : buildMatrix 1 [5] = [[(5:ℝ)]] := by
  rw [buildMatrix, chunks_one_single]
  simp

lemma dctMatrix_111_single : dctMatrixOf ⟨1, 1, 1⟩ [5] = [[(5:ℝ)]] := by
  show dct2_over_matrix (dct2_over_matrix (buildMatrix 1 [5]) Axis.Column)
    Axis.Row = [[(5:ℝ)]]
  rw [buildMatrix_one_single]
  simp only [dct2_over_matrix]
  rw [columnsOf_single, List.map_cons, List.map_nil, dct2_singleton,
    columnsOf_single, List.map_cons, List.map_nil, dct2_singleton]

lemma scaled_111_single : scaledMatrixOf ⟨1, 1, 1⟩ [5] = [[(5:ℝ)]] := by
  show selectLowFreq 1 1 (dctMatrixOf ⟨1, 1, 1⟩ [5]) = [[(5:ℝ)]]
  rw [dctMatrix_111_single]
  simp [selectLowFreq]

lemma median_111_single : medianOf ⟨1, 1, 1⟩ [5] = some 5 := by
  show median (scaledMatrixOf ⟨1, 1, 1⟩ [5]).flatten = some 5
  rw [scaled_111_single]
  simp [median_singleton]

lemma hash_111_single : hash_from_img ⟨1, 1, 1⟩ [5] = some ⟨[[false]]⟩ := by
  rw [hash_from_img_eq (by decide) (by decide) median_111_single,
    scaled_111_single, assignBits_single]
  have h : decide ((5:ℝ) > 5) = false := by simp
  rw [h]

lemma chunks_one_pair : chunks 1 ([1, 2] : List ℕ) = [[1], [2]] := by
  rw [chunks_cons one_ne_zero]
  have h1 : ([1, 2] : List ℕ).take 1 = [1] := rfl
  have h2 : ([1, 2] : List ℕ).drop 1 = [2] := rfl
  rw [h1, h2, chunks_cons one_ne_zero]
  simp [chunks_nil]

lemma buildMatrix_one_pair : buildMatrix 1 [1, 2] = [[(1:ℝ)], [(2:ℝ)]] := by
  rw [buildMatrix, chunks_one_pair]
  simp

lemma hash_111_pair : hash_from_img ⟨1, 1, 1⟩ [1, 2] = some ⟨[[false]]⟩ := by
  obtain ⟨a, b, hd⟩ : ∃ a b : ℝ, dct2 [(1:ℝ), 2] = [a, b] := by
    have hl := dct2_length [(1:ℝ), 2]
    rcases hdd : dct2 [(1:ℝ), 2] with _ | ⟨a, _ | ⟨b, _ | ⟨c, t⟩⟩⟩ <;>
      rw [hdd] at hl
    · simp at hl
    · simp at hl
    · exact ⟨a, b, rfl⟩
    · simp at hl
  have hinterm :
      dct2_over_matrix (buildMatrix 1 [1, 2]) Axis.Column = [[a], [b]] := by
    simp only [dct2_over_matrix]
    rw [buildMatrix_one_pair, columnsOf_pair_col, List.map_cons, List.map_nil,
      hd, columnsOf_pair_row]
  have hdctm : dctMatrixOf ⟨1, 1, 1⟩ [1, 2] = [[a], [b]] := by
    show dct2_over_matrix (dct2_over_matrix (buildMatrix 1 [1, 2]) Axis.Column)
      Axis.Row = [[a], [b]]
    rw [hinterm]
    simp only [dct2_over_matrix]
    rw [List.map_cons, List.map_cons, List.map_nil, dct2_singleton,
      dct2_singleton]
  have hscaled : scaledMatrixOf ⟨1, 1, 1⟩ [1, 2] = [[a]] := by
    show selectLowFreq 1 1 (dctMatrixOf ⟨1, 1, 1⟩ [1, 2]) = [[a]]
    rw [hdctm]
    simp [selectLowFreq]
  have hmed : medianOf ⟨1, 1, 1⟩ [1, 2] = some a := by
    show median (scaledMatrixOf ⟨1, 1, 1⟩ [1, 2]).flatten = some a
    rw [hscaled]
    simp [median_singleton]
  rw [hash_from_img_eq (by decide) (by decide) hmed, hscaled, assignBits_single]
  have h : decide (a > a) = false := by simp
  rw [h]

/-! ## Enumeration bounds -/

lemma mem_enumFrom_facts {α : Type} :
    ∀ (l : List α) (n : ℕ) (p : ℕ × α), p ∈ List.enumFrom n l →
      n ≤ p.1 ∧ p.1 < n + l.length ∧ p.2 ∈ l := by
  intro l
  induction l with
  | nil =>
      intro n p hp
      rw [List.enumFrom_nil] at hp
      simp at hp
  | cons x xs ih =>
      intro n p hp
      rw [List.enumFrom_cons] at hp
      rcases List.mem_cons.mp hp with rfl | hp
      · refine ⟨le_refl n, ?_, by simp⟩
        simp only [List.length_cons]
        omega
      · obtain ⟨h1, h2, h3⟩ := ih (n + 1) p hp
        exact ⟨by omega, by simp only [List.length_cons]; omega,
          List.mem_cons_of_mem _ h3⟩

/-! ## Claim theorems (part 2) -/

/-- C1: under the collaborator contract, the output bit at `(i, j)` is `true`
iff the coefficient at `(i, j)` of the selected sub-block is strictly greater
than the median of the flattened sub-block; a coefficient equal to the median
yields `false`. -/
theorem bit_iff_strictly_above_median (cfg : PerceptualHasher) (buffer : List ℕ)
    (hw : cfg.width ≠ 0) (hh : cfg.height ≠ 0) (hf : cfg.factor ≠ 0)
    (hlen : buffer.length = (cfg.width * cfg.factor) * (cfg.height * cfg.factor))
    (med : ℝ) (hmed : medianOf cfg buffer = some med)
    (hsh : ImageHash) (hhash : hash_from_img cfg buffer = some hsh) :
    ∀ i j, i < cfg.height → j < cfg.width →
      (bitAt hsh.matrix i j = true ↔
        coefAt (scaledMatrixOf cfg buffer) i j > med) ∧
      (coefAt (scaledMatrixOf cfg buffer) i j = med →
        bitAt hsh.matrix i j = false) := by
  have heq := hash_from_img_eq hw hf hmed
  have hsheq : hsh = ⟨assignBits med (scaledMatrixOf cfg buffer)
      (List.replicate cfg.height (List.replicate cfg.width false))⟩ :=
    (Option.some.inj (heq.symm.trans hhash)).symm
  obtain ⟨hslen, hsrow, _⟩ := scaledMatrixOf_rect cfg buffer hw hh hf hlen
  intro i j hi hj
  have hbit : bitAt hsh.matrix i j =
      decide (coefAt (scaledMatrixOf cfg buffer) i j > med) := by
    rw [hsheq]
    show bitAt (assignBits med (scaledMatrixOf cfg buffer)
      (List.replicate cfg.height (List.replicate cfg.width false))) i j = _
    rw [assignBits_bitAt,
      if_pos ⟨by omega, by rw [hsrow i hi]; exact hj, hi, hj⟩]
    rfl
  constructor
  · rw [hbit, decide_eq_true_eq]
  · intro hEq
    rw [hbit]
    exact decide_eq_false (by rw [hEq]; exact lt_irrefl med)

/-- Witness for C1 at configuration `{width 1, height 1, factor 1}` and the
contract-valid buffer `[5]`. -/
theorem bit_iff_strictly_above_median_witness :
    (bitAt (ImageHash.mk [[false]]).matrix 0 0 = true ↔
      coefAt (scaledMatrixOf ⟨1, 1, 1⟩ [5]) 0 0 > 5) ∧
    (coefAt (scaledMatrixOf ⟨1, 1, 1⟩ [5]) 0 0 = 5 →
      bitAt (ImageHash.mk [[false]]).matrix 0 0 = false) :=
  bit_iff_strictly_above_median ⟨1, 1, 1⟩ [5] (by decide) (by decide) (by decide)
    (by decide) 5 median_111_single ⟨[[false]]⟩ hash_111_single 0 0 (by decide)
    (by decide)

/-- C3: the 2D transform in `hash_from_img` is the 1D DCT-II applied to every
column of the sample matrix first (producing the intermediate matrix), then to
every row of that intermediate matrix, in exactly that order. -/
theorem dct_columns_then_rows (cfg : PerceptualHasher) (buffer : List ℕ)
    (hw : cfg.width ≠ 0) (hh : cfg.height ≠ 0) (hf : cfg.factor ≠ 0)
    (hlen : buffer.length = (cfg.width * cfg.factor) * (cfg.height * cfg.factor)) :
    dctMatrixOf cfg buffer =
      dct2_over_matrix
        (dct2_over_matrix (buildMatrix (cfg.width * cfg.factor) buffer)
          Axis.Column)
        Axis.Row ∧
    (∀ n j, n < cfg.height * cfg.factor → j < cfg.width * cfg.factor →
      coefAt (dct2_over_matrix (buildMatrix (cfg.width * cfg.factor) buffer)
          Axis.Column) n j =
        ∑ r ∈ Finset.range (cfg.height * cfg.factor),
          coefAt (buildMatrix (cfg.width * cfg.factor) buffer) r j *
            Real.cos (Real.pi / ((cfg.height * cfg.factor : ℕ) : ℝ) *
              ((r : ℝ) + 1 / 2) * (n : ℝ))) ∧
    ∀ i k, i < cfg.height * cfg.factor → k < cfg.width * cfg.factor →
      coefAt (dctMatrixOf cfg buffer) i k =
        ∑ n ∈ Finset.range (cfg.width * cfg.factor),
          coefAt (dct2_over_matrix (buildMatrix (cfg.width * cfg.factor) buffer)
              Axis.Column) i n *
            Real.cos (Real.pi / ((cfg.width * cfg.factor : ℕ) : ℝ) *
              ((n : ℝ) + 1 / 2) * (k : ℝ)) := by
  have hW : cfg.width * cfg.factor ≠ 0 := by
    intro h
    rcases Nat.mul_eq_zero.mp h with h | h <;> contradiction
  have hH : cfg.height * cfg.factor ≠ 0 := by
    intro h
    rcases Nat.mul_eq_zero.mp h with h | h <;> contradiction
  obtain ⟨hMlen, hMrows⟩ := buildMatrix_rect hW buffer hlen
  obtain ⟨hClen, hCrows, hCent⟩ :=
    dct_col_rect hMlen hMrows (Nat.pos_of_ne_zero hH) (Nat.pos_of_ne_zero hW)
  refine ⟨rfl, fun n j hn hj => hCent n j hn hj, ?_⟩
  intro i k hi hk
  have hrowlen : ((dct2_over_matrix (buildMatrix (cfg.width * cfg.factor) buffer)
      Axis.Column).getD i []).length = cfg.width * cfg.factor :=
    hCrows _ (getD_eq_of_mem_rect (by omega))
  rw [coefAt, dctMatrixOf, dct_row_getD _ (by omega),
    dct2_getD (by rw [hrowlen]; exact hk), hrowlen]
  rfl

/-- Witness for C3 at configuration `{width 1, height 1, factor 1}` and the
buffer `[5]`. -/
theorem dct_columns_then_rows_witness :
    dctMatrixOf ⟨1, 1, 1⟩ [5] =
      dct2_over_matrix
        (dct2_over_matrix (buildMatrix (1 * 1) [5]) Axis.Column) Axis.Row ∧
    (∀ n j, n < 1 * 1 → j < 1 * 1 →
      coefAt (dct2_over_matrix (buildMatrix (1 * 1) [5]) Axis.Column) n j =
        ∑ r ∈ Finset.range (1 * 1),
          coefAt (buildMatrix (1 * 1) [5]) r j *
            Real.cos (Real.pi / ((1 * 1 : ℕ) : ℝ) *
              ((r : ℝ) + 1 / 2) * (n : ℝ))) ∧
    ∀ i k, i < 1 * 1 → k < 1 * 1 →
      coefAt (dctMatrixOf ⟨1, 1, 1⟩ [5]) i k =
        ∑ n ∈ Finset.range (1 * 1),
          coefAt (dct2_over_matrix (buildMatrix (1 * 1) [5]) Axis.Column) i n *
            Real.cos (Real.pi / ((1 * 1 : ℕ) : ℝ) *
              ((n : ℝ) + 1 / 2) * (k : ℝ)) :=
  dct_columns_then_rows ⟨1, 1, 1⟩ [5] (by decide) (by decide) (by decide)
    (by decide)

/-- C6 counterexample: with `width = height = factor = 1` the buffer `[1, 2]`
has length `2 ≠ W*H = 1`, yet `hash_from_img` signals nothing: it silently
proceeds and returns a complete hash. -/
theorem mismatched_buffer_not_rejected :
    hash_from_img ⟨1, 1, 1⟩ [1, 2] = some ⟨[[false]]⟩ ∧
      ([1, 2] : List ℕ).length ≠ 1 * 1 * (1 * 1) :=
  ⟨hash_111_pair, by decide⟩

/-- C6 (amended): the code performs no buffer-length check: on a valid
configuration and a non-empty buffer whose length differs from `W*H`, the
Matrix Builder step signals no contract violation — `hash_from_img` proceeds
(capping/padding positions per the bit loop) and returns a complete
`height × width` hash. -/
theorem mismatched_buffer_completes (cfg : PerceptualHasher) (buffer : List ℕ)
    (hw : cfg.width ≠ 0) (hh : cfg.height ≠ 0) (hf : cfg.factor ≠ 0)
    (hbuf : buffer ≠ [])
    (hlen : buffer.length ≠ (cfg.width * cfg.factor) * (cfg.height * cfg.factor)) :
    ∃ hsh, hash_from_img cfg buffer = some hsh ∧
      hsh.matrix.length = cfg.height ∧ ∀ r ∈ hsh.matrix, r.length = cfg.width :=
  hash_from_img_shape hw hh hf hbuf

/-- Witness for the amended C6 at `{width 1, height 1, factor 1}` and the
wrong-length buffer `[1, 2]`. -/
theorem mismatched_buffer_completes_witness :
    ∃ hsh, hash_from_img ⟨1, 1, 1⟩ [1, 2] = some hsh ∧
      hsh.matrix.length = 1 ∧ ∀ r ∈ hsh.matrix, r.length = 1 :=
  mismatched_buffer_completes ⟨1, 1, 1⟩ [1, 2] (by decide) (by decide)
    (by decide) (by decide) (by decide)

lemma hash_shape_of_contract (cfg : PerceptualHasher) (buffer : List ℕ)
    (hw : cfg.width ≠ 0) (hh : cfg.height ≠ 0) (hf : cfg.factor ≠ 0)
    (hlen : buffer.length = (cfg.width * cfg.factor) * (cfg.height * cfg.factor)) :
    ∃ hsh, hash_from_img cfg buffer = some hsh ∧
      hsh.matrix.length = cfg.height ∧ ∀ r ∈ hsh.matrix, r.length = cfg.width := by
  have hbuf : buffer ≠ [] := by
    intro h
    rw [h] at hlen
    simp at hlen
    rcases hlen with (h' | h') | (h' | h') <;> contradiction
  exact hash_from_img_shape hw hh hf hbuf

/-- C7: for every valid configuration and contract-valid decoded buffer, the
returned `ImageHash` has exactly `height` rows of exactly `width` booleans. -/
theorem hash_shape_invariant (cfg : PerceptualHasher) (buffer : List ℕ)
    (hw : cfg.width ≠ 0) (hh : cfg.height ≠ 0) (hf : cfg.factor ≠ 0)
    (hlen : buffer.length = (cfg.width * cfg.factor) * (cfg.height * cfg.factor)) :
    ∃ hsh, hash_from_img cfg buffer = some hsh ∧
      hsh.matrix.length = cfg.height ∧ ∀ r ∈ hsh.matrix, r.length = cfg.width :=
  hash_shape_of_contract cfg buffer hw hh hf hlen

/-- Witness for C7 at `{width 1, height 1, factor 1}` and buffer `[5]`. -/
theorem hash_shape_invariant_witness :
    ∃ hsh, hash_from_img ⟨1, 1, 1⟩ [5] = some hsh ∧
      hsh.matrix.length = 1 ∧ ∀ r ∈ hsh.matrix, r.length = 1 :=
  hash_shape_invariant ⟨1, 1, 1⟩ [5] (by decide) (by decide) (by decide)
    (by decide)

/-- C8: `hash_from_path` returns the collaborator's open error and decode
error unchanged as the `Err` result, producing no (partial) hash; on success
with a contract-valid decoded buffer it returns one complete hash. -/
theorem hash_from_path_propagates_errors {ε ι : Type} (cfg : PerceptualHasher)
    (openResult : Except ε ι) (decode : ι → Except ε (List ℕ))
    (hw : cfg.width ≠ 0) (hh : cfg.height ≠ 0) (hf : cfg.factor ≠ 0) :
    (∀ e, openResult = Except.error e →
      hash_from_path cfg openResult decode = some (Except.error e)) ∧
    (∀ r e, openResult = Except.ok r → decode r = Except.error e →
      hash_from_path cfg openResult decode = some (Except.error e)) ∧
    (∀ r buffer, openResult = Except.ok r → decode r = Except.ok buffer →
      buffer.length = (cfg.width * cfg.factor) * (cfg.height * cfg.factor) →
      ∃ hsh, hash_from_path cfg openResult decode = some (Except.ok hsh) ∧
        hsh.matrix.length = cfg.height ∧ ∀ row ∈ hsh.matrix, row.length = cfg.width) := by
  refine ⟨?_, ?_, ?_⟩
  · intro e he
    rw [he]
    rfl
  · intro r e hr hd
    rw [hr]
    show (match decode r with
      | Except.error e => some (Except.error e)
      | Except.ok buffer => (hash_from_img cfg buffer).map Except.ok) =
        some (Except.error e)
    rw [hd]
  · intro r buffer hr hd hlen
    obtain ⟨hsh, hhash, h1, h2⟩ := hash_shape_of_contract cfg buffer hw hh hf hlen
    refine ⟨hsh, ?_, h1, h2⟩
    rw [hr]
    show (match decode r with
      | Except.error e => some (Except.error e)
      | Except.ok buffer => (hash_from_img cfg buffer).map Except.ok) =
        some (Except.ok hsh)
    rw [hd]
    show (hash_from_img cfg buffer).map Except.ok = some (Except.ok hsh)
    rw [hhash]
    rfl

/-- Witness for C8: a successful open and decode of the contract-valid buffer
`[5]` under `{width 1, height 1, factor 1}`. -/
theorem hash_from_path_propagates_errors_witness :
    ∃ hsh, hash_from_path ⟨1, 1, 1⟩ (Except.ok [5] : Except Unit (List ℕ))
        Except.ok = some (Except.ok hsh) ∧
      hsh.matrix.length = 1 ∧ ∀ row ∈ hsh.matrix, row.length = 1 :=
  (hash_from_path_propagates_errors ⟨1, 1, 1⟩
      (Except.ok [5] : Except Unit (List ℕ)) Except.ok (by decide) (by decide)
      (by decide)).2.2 [5] [5] rfl rfl (by decide)

/-- C10: for every valid configuration and non-empty buffer (wrong-length
buffers included), every index pair the bit loop enumerates lies inside the
`height × width` bit matrix, the hash is still produced with exactly `height`
rows of `width` booleans, and positions the scaled matrix does not cover stay
`false`. -/
theorem bit_loop_in_bounds_and_total (cfg : PerceptualHasher) (buffer : List ℕ)
    (hw : cfg.width ≠ 0) (hh : cfg.height ≠ 0) (hf : cfg.factor ≠ 0)
    (hbuf : buffer ≠ []) :
    (∀ p ∈ (scaledMatrixOf cfg buffer).enum,
      p.1 < cfg.height ∧ ∀ q ∈ p.2.enum, q.1 < cfg.width) ∧
    ∃ hsh, hash_from_img cfg buffer = some hsh ∧
      hsh.matrix.length = cfg.height ∧
      (∀ r ∈ hsh.matrix, r.length = cfg.width) ∧
      ∀ i j, i < cfg.height → j < cfg.width →
        ¬(i < (scaledMatrixOf cfg buffer).length ∧
            j < ((scaledMatrixOf cfg buffer).getD i []).length) →
          bitAt hsh.matrix i j = false := by
  obtain ⟨med, hmed⟩ := medianOf_isSome hw hh hf hbuf
  constructor
  · intro p hp
    rw [List.enum_eq_enumFrom] at hp
    obtain ⟨_, hp2, hp3⟩ := mem_enumFrom_facts _ _ _ hp
    have hslen : (scaledMatrixOf cfg buffer).length ≤ cfg.height := by
      rw [scaledMatrixOf, selectLowFreq, List.length_map, List.length_take]
      exact min_le_left _ _
    refine ⟨by omega, ?_⟩
    intro q hq
    rw [List.enum_eq_enumFrom] at hq
    obtain ⟨_, hq2, _⟩ := mem_enumFrom_facts _ _ _ hq
    have hrow : p.2.length ≤ cfg.width := by
      rw [scaledMatrixOf, selectLowFreq] at hp3
      obtain ⟨s, _, hps⟩ := List.mem_map.mp hp3
      rw [← hps, List.length_take]
      exact min_le_left _ _
    omega
  · refine ⟨_, hash_from_img_eq hw hf hmed, assignBits_length _ _ _ _, ?_, ?_⟩
    · intro r hr
      obtain ⟨k, hk, rfl⟩ := List.mem_iff_getElem.mp hr
      have hk' : k < cfg.height := by
        rw [assignBits_length] at hk
        exact hk
      rw [← getD_eq_get_of_lt _ ([] : List Bool) hk, assignBits_row_length,
        if_pos hk']
    · intro i j hi hj hnc
      show bitAt (assignBits med (scaledMatrixOf cfg buffer)
        (List.replicate cfg.height (List.replicate cfg.width false))) i j = false
      rw [assignBits_bitAt, if_neg (by tauto)]

/-- Witness for C10 at `{width 1, height 1, factor 1}` and the wrong-length
buffer `[1, 2]`. -/
theorem bit_loop_in_bounds_and_total_witness :
    (∀ p ∈ (scaledMatrixOf ⟨1, 1, 1⟩ [1, 2]).enum,
      p.1 < (1:ℕ) ∧ ∀ q ∈ p.2.enum, q.1 < (1:ℕ)) ∧
    ∃ hsh, hash_from_img ⟨1, 1, 1⟩ [1, 2] = some hsh ∧
      hsh.matrix.length = 1 ∧
      (∀ r ∈ hsh.matrix, r.length = 1) ∧
      ∀ i j, i < (1:ℕ) → j < (1:ℕ) →
        ¬(i < (scaledMatrixOf ⟨1, 1, 1⟩ [1, 2]).length ∧
            j < ((scaledMatrixOf ⟨1, 1, 1⟩ [1, 2]).getD i []).length) →
          bitAt hsh.matrix i j = false :=
  bit_loop_in_bounds_and_total ⟨1, 1, 1⟩ [1, 2] (by decide) (by decide)
    (by decide) (by decide)

end ImgHash
